import Mathlib

/-!
Shallow embedding of the placeholder-substitution core of
`src/Practical_File/script.js` (the class-based variant, lines 790-946,
plus the filename sanitisation at lines 316-318 / 835-837).

Texts are modelled as `List Char`.  The JavaScript calls
`text.replace(/{name}/g, value)` use a literal regular expression with the
global flag and a *string* replacement; per ECMAScript `GetSubstitution`,
dollar sequences in the replacement string are interpreted
(`$$` gives `$`, `$&` the matched text, a dollar followed by a backquote the
text before the match, a dollar followed by a quote the text after the
match; `$n` stays literal because the pattern has no capture groups).
The embedding reproduces this faithfully.
-/

/-- The character `{` (written via its code point to keep it out of literals). -/
def lbChar : Char := Char.ofNat 123

/-- The character `}` (written via its code point). -/
def rbChar : Char := Char.ofNat 125

/-- The backquote character, code point 96. -/
def bqChar : Char := Char.ofNat 96

/-- The single-quote character, code point 39. -/
def qtChar : Char := Char.ofNat 39

/-- The literal token the code searches for with `/{name}/g`. -/
def tokName : List Char := lbChar :: ("name".toList ++ [rbChar])

/-- The literal token the code searches for with `/{rollNo}/g`. -/
def tokRollNo : List Char := lbChar :: ("rollNo".toList ++ [rbChar])

/-- The literal token the code searches for with `/{section}/g`. -/
def tokSection : List Char := lbChar :: ("section".toList ++ [rbChar])

/-- Does `p` match at the very start of the text?  (Literal-pattern matching,
the anchor step of the regex scan.) -/
def startsWithTok : List Char → List Char → Bool
  | [], _ => true
  | _ :: _, [] => false
  | p :: ps, c :: cs => p == c && startsWithTok ps cs

/-- Leftmost match of the literal pattern `pat` in `l`: returns
`some (pre, post)` with `l = pre ++ pat ++ post` and the match position
minimal, `none` when `pat` does not occur.  This is the scan a global
regex over a literal pattern performs to find each match. -/
def firstMatch (pat : List Char) : List Char → Option (List Char × List Char)
  | [] => if pat.isEmpty then some ([], []) else none
  | c :: cs =>
    if startsWithTok pat (c :: cs) then some ([], (c :: cs).drop pat.length)
    else
      match firstMatch pat cs with
      | some (pre, post) => some (c :: pre, post)
      | none => none

/-- JavaScript `String.prototype.includes` for a literal pattern, as used by
the guards `xmlContent.includes('{name}')` etc. -/
def includesTok (pat : List Char) : List Char → Bool
  | [] => pat.isEmpty
  | c :: cs => startsWithTok pat (c :: cs) || includesTok pat cs

/-- `pat` occurs (as a contiguous substring) in `l`. -/
def OccursIn (pat l : List Char) : Prop := ∃ a b, l = a ++ pat ++ b

/-- ECMAScript `GetSubstitution` for a replacement string, specialised to a
pattern with no capture groups: `matched` is the matched text, `before` the
part of the whole subject before the match, `after` the part after it. -/
def getSubstitution (matched bef aft : List Char) : List Char → List Char
  | [] => []
  | c :: rest =>
    if c = '$' then
      match rest with
      | [] => ['$']
      | c2 :: rest2 =>
        if c2 = '$' then '$' :: getSubstitution matched bef aft rest2
        else if c2 = '&' then matched ++ getSubstitution matched bef aft rest2
        else if c2 = bqChar then bef ++ getSubstitution matched bef aft rest2
        else if c2 = qtChar then aft ++ getSubstitution matched bef aft rest2
        else '$' :: getSubstitution matched bef aft (c2 :: rest2)
    else c :: getSubstitution matched bef aft rest

/-- `true` when the string contains none of the dollar sequences that
`getSubstitution` interprets (`$$`, `$&`, dollar-backquote, dollar-quote). -/
def dollarSpecialFree : List Char → Bool
  | [] => true
  | c :: rest =>
    if c = '$' then
      match rest with
      | [] => true
      | c2 :: rest2 =>
        if c2 = '$' ∨ c2 = '&' ∨ c2 = bqChar ∨ c2 = qtChar then false
        else dollarSpecialFree (c2 :: rest2)
    else dollarSpecialFree rest

/-- One pass of JavaScript `subject.replace(/pat/g, v)` (literal pattern,
string replacement): scan `rest` for matches left to right; `done` is the
already-scanned part of the original subject (needed because the
dollar-backquote and dollar-quote sequences refer to the whole subject).
`fuel` bounds the number of matches; `subject.length + 1` is always enough
for a nonempty pattern. -/
def replaceJSFuel (pat v : List Char) : Nat → List Char → List Char → List Char
  | 0, _, rest => rest
  | Nat.succ fuel, done, rest =>
    match firstMatch pat rest with
    | none => rest
    | some (pre, post) =>
      pre ++ getSubstitution pat (done ++ pre) post v ++
        replaceJSFuel pat v fuel (done ++ pre ++ pat) post

/-- JavaScript `subject.replace(/pat/g, v)` for the literal pattern `pat`. -/
def replaceJS (pat v subject : List Char) : List Char :=
  replaceJSFuel pat v (subject.length + 1) [] subject

/-- The chunks of `l` delimited by the leftmost non-overlapping occurrences
of `pat`: `l` is the chunks rejoined with `pat`, and no chunk contains an
occurrence of `pat`.  (Specification-side view of the global scan.) -/
def chunksFuel (pat : List Char) : Nat → List Char → List (List Char)
  | 0, l => [l]
  | Nat.succ fuel, l =>
    match firstMatch pat l with
    | none => [l]
    | some (pre, post) => pre :: chunksFuel pat fuel post

/-- The chunk decomposition of `l` by `pat`. -/
def chunks (pat l : List Char) : List (List Char) :=
  chunksFuel pat (l.length + 1) l

/-- Number of (leftmost, non-overlapping) occurrences of `pat` in `l`. -/
def countOccur (pat l : List Char) : Nat := (chunks pat l).length - 1

/-- Join a list of pieces with a separator placed between them. -/
def joinWith (sep : List Char) : List (List Char) → List Char
  | [] => []
  | [c] => c
  | c :: c2 :: cs => c ++ sep ++ joinWith sep (c2 :: cs)

/-- Modelled from the spec: literal substitution exactly as §4.1 words it —
every occurrence of the token is replaced by the value inserted verbatim,
all other text kept byte-identical.  Used to compare the code's
dollar-interpreting `replaceJS` against the spec's contract. -/
def replaceLiteral (pat v l : List Char) : List Char :=
  joinWith v (chunks pat l)

/-- The three trimmed form fields handed to `processDocumentXML` as
`{ name, rollNo, section }`. -/
structure FormData where
  name : List Char
  rollNo : List Char
  sect : List Char
deriving DecidableEq

/-- The per-key replaced / not-found log lines of `processDocumentXML`:
`true` records the "Replaced {key} with ..." success line, `false` the
"{key} not found in template" warning line. -/
structure SubstReport where
  nameReplaced : Bool
  rollNoReplaced : Bool
  sectionReplaced : Bool
deriving DecidableEq

/-- Lines 874-898 of `processDocumentXML`: the per-part text transform.
Each guard tests the ORIGINAL `xmlContent` (as the code does), while the
replacement is applied to the running `modifiedContent`.  Returns the
modified text and the per-key report. -/
def processDocumentText (d : FormData) (xmlContent : List Char) :
    List Char × SubstReport :=
  let m1 := if includesTok tokName xmlContent then
      replaceJS tokName d.name xmlContent else xmlContent
  let m2 := if includesTok tokRollNo xmlContent then
      replaceJS tokRollNo d.rollNo m1 else m1
  let m3 := if includesTok tokSection xmlContent then
      replaceJS tokSection d.sect m2 else m2
  (m3, ⟨includesTok tokName xmlContent, includesTok tokRollNo xmlContent,
        includesTok tokSection xmlContent⟩)

/-- The in-memory DOCX package: internal path paired with text content,
as JSZip presents it to this code. -/
abbrev Package : Type := List (List Char × List Char)

/-- JSZip `zip.file(path)`: look a part up by exact path. -/
def zipGet (zip : Package) (p : List Char) : Option (List Char) :=
  (List.find? (fun e => e.1 == p) zip).map (fun e => e.2)

/-- JSZip `zip.file(path, content)`: replace the content at `path`
(or add the part when absent). -/
def zipSet (zip : Package) (p c : List Char) : Package :=
  if List.any zip (fun e => e.1 == p) then
    List.map (fun e => if e.1 == p then (p, c) else e) zip
  else zip ++ [(p, c)]

/-- `'word/document.xml'`, the primary body part's path. -/
def docPath : List Char := "word/document.xml".toList

/-- `'.xml'`. -/
def xmlSuffix : List Char := ".xml".toList

/-- `processHeaderFooter(zip, data, type)` (lines 915-946): collect every
part whose path contains `word/<type>` and ends with `.xml`, replace the
three tokens (unguarded) in each, and write the results back.  The JS
wraps this in try/catch and never throws; the embedding is total. -/
def processHeaderFooter (d : FormData) (zip : Package) (ty : List Char) :
    Package :=
  let files := List.filter
    (fun e => includesTok ("word/".toList ++ ty) e.1 &&
              xmlSuffix.isSuffixOf e.1) zip
  List.foldl
    (fun z e => zipSet z e.1
      (replaceJS tokSection d.sect
        (replaceJS tokRollNo d.rollNo (replaceJS tokName d.name e.2))))
    zip files

/-- `processDocumentXML(zip, data)` (lines 862-913): read
`word/document.xml` (its absence throws
"Could not find document.xml in the .docx file"), substitute placeholders,
write the part back, then best-effort process headers and footers. -/
def processDocumentXML (d : FormData) (zip : Package) :
    Except String Package :=
  match zipGet zip docPath with
  | none => Except.error "Could not find document.xml in the .docx file"
  | some xmlContent =>
    let modified := (processDocumentText d xmlContent).1
    let z1 := zipSet zip docPath modified
    let z2 := processHeaderFooter d z1 "header".toList
    let z3 := processHeaderFooter d z2 "footer".toList
    Except.ok z3

/-- `generateDocument` (lines 790-860), restricted to its pure core: the
template fetch, serialisation and file save are external I/O; the document
production step is `processDocumentXML`, and any error it throws is caught
at lines 849-859, aborting the attempt with no output document. -/
def generateDocument (d : FormData) (zip : Package) :
    Except String Package :=
  processDocumentXML d zip

/-- One character of the class `[^\w\s.-]` is kept, everything else becomes
`_` (the regex at lines 316-318 / 835-837 matches single characters, so the
global replace is a character map).  `\w` is `[A-Za-z0-9_]`. -/
def isWordCharJS (c : Char) : Bool :=
  (('a' ≤ c && c ≤ 'z') || ('A' ≤ c && c ≤ 'Z') ||
   ('0' ≤ c && c ≤ '9') || c == '_')

/-- The ECMAScript `\s` class: WhiteSpace (TAB, VT, FF, SP, NBSP U+00A0,
ZWNBSP U+FEFF, and the Space_Separator category U+1680, U+2000-U+200A,
U+202F, U+205F, U+3000) together with the LineTerminators
(LF, CR, U+2028, U+2029). -/
def isSpaceCharJS (c : Char) : Bool :=
  (c == ' ' || c == '\t' || c == '\n' || c == '\r' ||
   c == Char.ofNat 11 || c == Char.ofNat 12 ||
   c == Char.ofNat 160 || c == Char.ofNat 5760 ||
   (Char.ofNat 8192 ≤ c && c ≤ Char.ofNat 8202) ||
   c == Char.ofNat 8232 || c == Char.ofNat 8233 ||
   c == Char.ofNat 8239 || c == Char.ofNat 8287 ||
   c == Char.ofNat 12288 || c == Char.ofNat 65279)

/-- `name.replace(/[^\w\s.-]/gi, '_')` applied to one character. -/
def sanitizeChar (c : Char) : Char :=
  if isWordCharJS c || isSpaceCharJS c || c == '.' || c == '-' then c
  else '_'

/-- `field.replace(/[^\w\s.-]/gi, '_')`. -/
def sanitizeField (s : List Char) : List Char := s.map sanitizeChar

/-- The template-literal filename of lines 318 / 837. -/
def makeFilename (nm rn : List Char) : List Char :=
  sanitizeField nm ++ ('_' :: sanitizeField rn) ++ ".docx".toList

/-- Modelled from the spec: a character the spec's filename sanitisation
keeps ("word-characters, whitespace, `.` and `-`"). -/
def allowedFilenameChar (c : Char) : Bool :=
  isWordCharJS c || isSpaceCharJS c || c == '.' || c == '-'

/-- The three placeholder keys of the fixed map. -/
inductive Key where
  | name
  | rollNo
  | sect
deriving DecidableEq

/-- The token the code's replace call searches for, per key. -/
def keyTok : Key → List Char
  | Key.name => tokName
  | Key.rollNo => tokRollNo
  | Key.sect => tokSection

/-- The form value substituted for a key. -/
def keyVal (d : FormData) : Key → List Char
  | Key.name => d.name
  | Key.rollNo => d.rollNo
  | Key.sect => d.sect

/-- Applying the code's substitution for a list of keys in order: each key's
step is the `replace(/{key}/g, value)` call of lines 878/886/894 (the
`includes` guard only skips the call when it would be the identity). -/
def applyKeys (d : FormData) (ks : List Key) (t : List Char) : List Char :=
  List.foldl (fun acc k => replaceJS (keyTok k) (keyVal d k) acc) t ks

/-- A document text presented as an interleaving of literal segments and
placeholder tokens. -/
inductive Item where
  | seg : List Char → Item
  | ph : Key → Item
deriving DecidableEq

/-- Flatten an interleaving back to text. -/
def render : List Item → List Char
  | [] => []
  | Item.seg s :: rest => s ++ render rest
  | Item.ph k :: rest => keyTok k ++ render rest

/-- A string with no brace characters. -/
def braceFree (s : List Char) : Bool :=
  s.all (fun c => !(c == lbChar) && !(c == rbChar))

/-- Every literal segment of the interleaving is brace-free (so every brace
of the rendered text belongs to a placeholder token). -/
def itemsOk (items : List Item) : Bool :=
  items.all (fun it => match it with
    | Item.seg s => braceFree s
    | Item.ph _ => true)

/-- Replace one key's placeholder items by its value, as a literal segment. -/
def substOne (k : Key) (v : List Char) : Item → Item
  | Item.seg s => Item.seg s
  | Item.ph k2 => if k2 = k then Item.seg v else Item.ph k2

example : replaceJS tokName "Ann".toList
    ("Hello ".toList ++ tokName ++ "!".toList) =
    "Hello Ann!".toList := by decide

example : replaceJS tokName "$&".toList tokName = tokName := by decide

example : (processDocumentText ⟨"Ann".toList, "7".toList, "B".toList⟩
    ("Hi ".toList ++ tokName)).1 = "Hi Ann".toList := by decide

example : chunks tokName (tokName ++ "x".toList ++ tokName) =
    [[], "x".toList, []] := by decide

theorem startsWithTok_iff (p l : List Char) :
    startsWithTok p l = true ↔ ∃ t, l = p ++ t := by
  induction p generalizing l with
  | nil => simp [startsWithTok]
  | cons a as ih =>
    cases l with
    | nil => simp [startsWithTok]
    | cons c cs =>
      simp only [startsWithTok, Bool.and_eq_true, beq_iff_eq, ih,
        List.cons_append, List.cons.injEq]
      constructor
      · rintro ⟨rfl, t, rfl⟩
        exact ⟨t, rfl, rfl⟩
      · rintro ⟨t, rfl, rfl⟩
        exact ⟨rfl, t, rfl⟩

theorem firstMatch_some (pat : List Char) :
    ∀ l pre post : List Char,
      firstMatch pat l = some (pre, post) → l = pre ++ pat ++ post := by
  intro l
  induction l with
  | nil =>
    intro pre post h
    rw [firstMatch] at h
    split at h
    · next hp =>
      simp only [Option.some.injEq, Prod.mk.injEq] at h
      obtain ⟨rfl, rfl⟩ := h
      simp [List.isEmpty_iff.mp hp]
    · exact absurd h (by simp)
  | cons c cs ih =>
    intro pre post h
    rw [firstMatch] at h
    split at h
    · next hsw =>
      obtain ⟨t, ht⟩ := (startsWithTok_iff pat (c :: cs)).mp hsw
      simp only [Option.some.injEq, Prod.mk.injEq] at h
      obtain ⟨rfl, rfl⟩ := h
      rw [ht, List.drop_left]
      simp
    · next hsw =>
      cases hfm : firstMatch pat cs with
      | none => rw [hfm] at h; exact absurd h (by simp)
      | some pr =>
        obtain ⟨pre2, post2⟩ := pr
        rw [hfm] at h
        simp only [Option.some.injEq, Prod.mk.injEq] at h
        obtain ⟨rfl, rfl⟩ := h
        simp [ih pre2 post2 hfm]

theorem firstMatch_isSome (pat : List Char) :
    ∀ l : List Char, (firstMatch pat l).isSome = includesTok pat l := by
  intro l
  induction l with
  | nil =>
    rw [firstMatch, includesTok]
    cases hp : pat.isEmpty <;> simp [hp]
  | cons c cs ih =>
    rw [firstMatch, includesTok]
    cases hsw : startsWithTok pat (c :: cs) with
    | true => simp [hsw]
    | false =>
      rw [← ih]
      cases hfm : firstMatch pat cs with
      | none => simp [hsw, hfm]
      | some pr =>
        obtain ⟨a, b⟩ := pr
        simp [hsw, hfm]

theorem includesTok_iff (pat : List Char) :
    ∀ l : List Char, includesTok pat l = true ↔ OccursIn pat l := by
  intro l
  induction l with
  | nil =>
    rw [includesTok]
    constructor
    · intro hp
      refine ⟨[], [], ?_⟩
      simp [List.isEmpty_iff.mp hp]
    · rintro ⟨a, b, hab⟩
      have h0 : a ++ (pat ++ b) = [] := by simpa using hab.symm
      rw [List.append_eq_nil, List.append_eq_nil] at h0
      simp [List.isEmpty_iff, h0.2.1]
  | cons c cs ih =>
    rw [includesTok]
    constructor
    · intro h
      rcases Bool.or_eq_true _ _ |>.mp h with hsw | hin
      · obtain ⟨t, ht⟩ := (startsWithTok_iff pat (c :: cs)).mp hsw
        exact ⟨[], t, by simp [ht]⟩
      · obtain ⟨a, b, hab⟩ := ih.mp hin
        exact ⟨c :: a, b, by simp [hab]⟩
    · rintro ⟨a, b, hab⟩
      cases a with
      | nil =>
        have : startsWithTok pat (c :: cs) = true :=
          (startsWithTok_iff pat (c :: cs)).mpr ⟨b, by simpa using hab⟩
        simp [this]
      | cons a0 arest =>
        simp only [List.cons_append, List.cons.injEq] at hab
        obtain ⟨rfl, hcs⟩ := hab
        have : includesTok pat cs = true := ih.mpr ⟨arest, b, by simp [hcs]⟩
        simp [this]

theorem includesTok_false_iff (pat l : List Char) :
    includesTok pat l = false ↔ ¬ OccursIn pat l := by
  rw [← includesTok_iff]
  cases includesTok pat l <;> simp

theorem firstMatch_leftmost (pat : List Char) (hp : pat ≠ []) :
    ∀ l pre post : List Char,
      firstMatch pat l = some (pre, post) → includesTok pat pre = false := by
  intro l
  induction l with
  | nil =>
    intro pre post h
    rw [firstMatch] at h
    split at h
    · next hpe => exact absurd (List.isEmpty_iff.mp hpe) hp
    · exact absurd h (by simp)
  | cons c cs ih =>
    intro pre post h
    rw [firstMatch] at h
    split at h
    · next hsw =>
      simp only [Option.some.injEq, Prod.mk.injEq] at h
      obtain ⟨rfl, rfl⟩ := h
      rw [includesTok]
      simp [List.isEmpty_iff, hp]
    · next hsw =>
      cases hfm : firstMatch pat cs with
      | none => rw [hfm] at h; exact absurd h (by simp)
      | some pr =>
        obtain ⟨pre2, post2⟩ := pr
        rw [hfm] at h
        simp only [Option.some.injEq, Prod.mk.injEq] at h
        obtain ⟨rfl, rfl⟩ := h
        rw [includesTok]
        have h1 : includesTok pat pre2 = false := ih pre2 post2 hfm
        have h2 : startsWithTok pat (c :: pre2) = false := by
          cases hsw2 : startsWithTok pat (c :: pre2) with
          | false => rfl
          | true =>
            obtain ⟨t, ht⟩ := (startsWithTok_iff pat (c :: pre2)).mp hsw2
            have hcs : cs = pre2 ++ pat ++ post2 := firstMatch_some pat cs pre2 post2 hfm
            have : startsWithTok pat (c :: cs) = true := by
              refine (startsWithTok_iff pat (c :: cs)).mpr ⟨t ++ pat ++ post2, ?_⟩
              have : c :: cs = (c :: pre2) ++ (pat ++ post2) := by simp [hcs]
              rw [this, ht]
              simp
            simp [this] at hsw
        simp [h1, h2]

theorem getSubstitution_id_aux (m a b : List Char) :
    ∀ n : Nat, ∀ v : List Char, v.length ≤ n →
      dollarSpecialFree v = true → getSubstitution m a b v = v := by
  intro n
  induction n with
  | zero =>
    intro v hlen _
    have : v = [] := List.length_eq_zero.mp (Nat.le_zero.mp hlen)
    subst this
    rfl
  | succ n ih =>
    intro v hlen hdsf
    cases v with
    | nil => rfl
    | cons c rest =>
      by_cases hc : c = '$'
      · subst hc
        cases rest with
        | nil => simp [getSubstitution]
        | cons c2 rest2 =>
          rw [dollarSpecialFree.eq_def] at hdsf
          simp only [if_pos rfl] at hdsf
          have hns : ¬ (c2 = '$' ∨ c2 = '&' ∨ c2 = bqChar ∨ c2 = qtChar) := by
            by_contra hcon
            rw [if_pos hcon] at hdsf
            exact absurd hdsf (by simp)
          rw [if_neg hns] at hdsf
          push_neg at hns
          obtain ⟨h1, h2, h3, h4⟩ := hns
          rw [getSubstitution.eq_def]
          simp only [if_pos rfl]
          rw [if_neg h1, if_neg h2, if_neg h3, if_neg h4]
          have hrec : getSubstitution m a b (c2 :: rest2) = c2 :: rest2 := by
            refine ih (c2 :: rest2) ?_ hdsf
            simp at hlen ⊢
            omega
          rw [hrec]
          simp
      · rw [getSubstitution.eq_def]
        simp only [hc, if_false]
        rw [dollarSpecialFree.eq_def] at hdsf
        simp only [hc, if_false] at hdsf
        have hrec : getSubstitution m a b rest = rest := by
          refine ih rest ?_ hdsf
          simp at hlen
          omega
        rw [hrec]

theorem getSubstitution_id (m a b v : List Char)
    (hdsf : dollarSpecialFree v = true) : getSubstitution m a b v = v :=
  getSubstitution_id_aux m a b v.length v (Nat.le_refl _) hdsf

theorem firstMatch_post_lt (pat : List Char) (hp : pat ≠ []) :
    ∀ l pre post : List Char,
      firstMatch pat l = some (pre, post) → post.length < l.length := by
  intro l pre post h
  have hd := firstMatch_some pat l pre post h
  have hl : 0 < pat.length := List.length_pos.mpr hp
  subst hd
  simp [List.length_append]
  omega

theorem chunksFuel_ne_nil (pat : List Char) :
    ∀ fuel l, chunksFuel pat fuel l ≠ [] := by
  intro fuel l
  cases fuel with
  | zero => simp [chunksFuel]
  | succ n =>
    rw [chunksFuel]
    cases hfm : firstMatch pat l with
    | none => simp [hfm]
    | some pr =>
      obtain ⟨pre, post⟩ := pr
      simp [hfm]

theorem chunksFuel_join (pat : List Char) (hp : pat ≠ []) :
    ∀ fuel l, l.length ≤ fuel → joinWith pat (chunksFuel pat fuel l) = l := by
  intro fuel
  induction fuel with
  | zero => intro l hl; rfl
  | succ n ih =>
    intro l hl
    cases hfm : firstMatch pat l with
    | none =>
      rw [chunksFuel]
      simp [hfm]
      rfl
    | some pr =>
      obtain ⟨pre, post⟩ := pr
      rw [chunksFuel]
      simp only [hfm]
      have hpost : post.length < l.length := firstMatch_post_lt pat hp l pre post hfm
      have hj : joinWith pat (chunksFuel pat n post) = post := ih post (by omega)
      have hne := chunksFuel_ne_nil pat n post
      cases hc : chunksFuel pat n post with
      | nil => exact absurd hc hne
      | cons c0 cs0 =>
        rw [hc] at hj
        rw [joinWith, hj]
        have := firstMatch_some pat l pre post hfm
        simp [this]

theorem chunksFuel_no_occ (pat : List Char) (hp : pat ≠ []) :
    ∀ fuel l, l.length ≤ fuel →
      ∀ c ∈ chunksFuel pat fuel l, includesTok pat c = false := by
  intro fuel
  induction fuel with
  | zero =>
    intro l hl c hc
    have : l = [] := List.length_eq_zero.mp (Nat.le_zero.mp hl)
    subst this
    simp [chunksFuel] at hc
    subst hc
    simp [includesTok, List.isEmpty_iff, hp]
  | succ n ih =>
    intro l hl c hc
    cases hfm : firstMatch pat l with
    | none =>
      rw [chunksFuel] at hc
      simp [hfm] at hc
      subst hc
      have := firstMatch_isSome pat c
      rw [hfm] at this
      simpa using this.symm
    | some pr =>
      obtain ⟨pre, post⟩ := pr
      rw [chunksFuel] at hc
      simp only [hfm, List.mem_cons] at hc
      rcases hc with rfl | hc
      · exact firstMatch_leftmost pat hp l c post hfm
      · have hpost := firstMatch_post_lt pat hp l pre post hfm
        exact ih post (by omega) c hc

theorem replaceJSFuel_no_match (pat v : List Char) (fuel : Nat)
    (done l : List Char) (hfm : firstMatch pat l = none) :
    replaceJSFuel pat v fuel done l = l := by
  cases fuel with
  | zero => rfl
  | succ n =>
    rw [replaceJSFuel]
    simp [hfm]

theorem replaceJSFuel_eq_joinWith (pat v : List Char) (hp : pat ≠ [])
    (hv : dollarSpecialFree v = true) :
    ∀ fuel l done, l.length ≤ fuel →
      replaceJSFuel pat v fuel done l = joinWith v (chunksFuel pat fuel l) := by
  intro fuel
  induction fuel with
  | zero => intro l done hl; rfl
  | succ n ih =>
    intro l done hl
    cases hfm : firstMatch pat l with
    | none =>
      rw [replaceJSFuel, chunksFuel]
      simp [hfm, joinWith]
    | some pr =>
      obtain ⟨pre, post⟩ := pr
      rw [replaceJSFuel, chunksFuel]
      simp only [hfm]
      have hpost := firstMatch_post_lt pat hp l pre post hfm
      rw [getSubstitution_id pat (done ++ pre) post v hv]
      rw [ih post (done ++ pre ++ pat) (by omega)]
      have hne := chunksFuel_ne_nil pat n post
      cases hc : chunksFuel pat n post with
      | nil => exact absurd hc hne
      | cons c0 cs0 =>
        rw [joinWith]

theorem replaceJS_eq_replaceLiteral (pat v l : List Char) (hp : pat ≠ [])
    (hv : dollarSpecialFree v = true) :
    replaceJS pat v l = replaceLiteral pat v l := by
  rw [replaceJS, replaceLiteral, chunks]
  exact replaceJSFuel_eq_joinWith pat v hp hv (l.length + 1) l [] (by omega)

theorem replaceJS_id_of_no_occ (pat v l : List Char)
    (h : includesTok pat l = false) : replaceJS pat v l = l := by
  rw [replaceJS]
  have hfm : firstMatch pat l = none := by
    have hs := firstMatch_isSome pat l
    rw [h] at hs
    cases hfm2 : firstMatch pat l with
    | none => rfl
    | some pr => rw [hfm2] at hs; simp at hs
  exact replaceJSFuel_no_match pat v _ [] l hfm

theorem joinWith_length (sep : List Char) :
    ∀ cs : List (List Char), cs ≠ [] →
      (joinWith sep cs).length =
        (List.map List.length cs).sum + (cs.length - 1) * sep.length := by
  intro cs
  induction cs with
  | nil => intro h; exact absurd rfl h
  | cons c0 cs0 ih =>
    intro _
    cases cs0 with
    | nil => simp [joinWith]
    | cons c1 cs1 =>
      rw [joinWith]
      have hrec := ih (by simp)
      simp only [List.length_append, hrec, List.map_cons, List.sum_cons,
        List.length_cons, Nat.add_sub_cancel]
      ring

theorem chunks_join (pat l : List Char) (hp : pat ≠ []) :
    joinWith pat (chunks pat l) = l :=
  chunksFuel_join pat hp (l.length + 1) l (by omega)

theorem chunks_no_occ (pat l : List Char) (hp : pat ≠ []) :
    ∀ c ∈ chunks pat l, includesTok pat c = false :=
  chunksFuel_no_occ pat hp (l.length + 1) l (by omega)

theorem chunks_ne_nil (pat l : List Char) : chunks pat l ≠ [] :=
  chunksFuel_ne_nil pat _ l

theorem replaceJS_length (pat v l : List Char) (hp : pat ≠ [])
    (hv : dollarSpecialFree v = true) :
    ((replaceJS pat v l).length : Int) =
      (l.length : Int) + (countOccur pat l : Int) *
        ((v.length : Int) - (pat.length : Int)) := by
  rw [replaceJS_eq_replaceLiteral pat v l hp hv, replaceLiteral]
  obtain ⟨c0, cs0, hcs⟩ := List.exists_cons_of_ne_nil (chunks_ne_nil pat l)
  have h1 := joinWith_length v (chunks pat l) (by rw [hcs]; simp)
  have h2 := joinWith_length pat (chunks pat l) (by rw [hcs]; simp)
  rw [chunks_join pat l hp] at h2
  rw [countOccur, h1, h2, hcs]
  simp only [List.length_cons, Nat.add_sub_cancel]
  push_cast
  ring

/-- C1 counterexample: with value `$&` for `name` and body text `{name}`,
the per-part transform of `processDocumentXML` re-inserts the matched token
(JS dollar substitution), so the output length is NOT
`len(T) + n * (len(v) - len(token))` (6 instead of 2). -/
theorem claim_c1_counterexample :
    ¬ (((processDocumentText ⟨"$&".toList, [], []⟩ tokName).1.length : Int) =
      (tokName.length : Int) + (countOccur tokName tokName : Int) *
        ((("$&".toList).length : Int) - (tokName.length : Int))) := by
  decide

/-- C1 (amended): for every nonempty literal token and every replacement
value containing no interpreted dollar sequence, the replace call used by
`processDocumentXML` for each key rewrites its input as follows: the input
is the chunk list rejoined with the token, no chunk contains the token, the
output is the chunk list rejoined with the value (so exactly the `n`
leftmost non-overlapping occurrences are replaced and all text outside the
replaced spans is byte-identical), and the output length is
`len(T) + n * (len(v) - len(token))`. -/
theorem claim_c1 (pat v T : List Char) (hp : pat ≠ [])
    (hv : dollarSpecialFree v = true) :
    T = joinWith pat (chunks pat T) ∧
    (∀ c ∈ chunks pat T, ¬ OccursIn pat c) ∧
    replaceJS pat v T = joinWith v (chunks pat T) ∧
    ((replaceJS pat v T).length : Int) =
      (T.length : Int) + (countOccur pat T : Int) *
        ((v.length : Int) - (pat.length : Int)) := by
  refine ⟨(chunks_join pat T hp).symm, ?_, ?_, replaceJS_length pat v T hp hv⟩
  · intro c hc
    exact (includesTok_false_iff pat c).mp (chunks_no_occ pat T hp c hc)
  · exact replaceJS_eq_replaceLiteral pat v T hp hv

/-- Witness for C1 at the `name` token, value `Ann`, a text with two
occurrences. -/
theorem claim_c1_witness :
    tokName ≠ [] ∧ dollarSpecialFree ("Ann".toList) = true ∧
    ((tokName ++ " and ".toList ++ tokName) =
        joinWith tokName (chunks tokName (tokName ++ " and ".toList ++ tokName)) ∧
      (∀ c ∈ chunks tokName (tokName ++ " and ".toList ++ tokName),
        ¬ OccursIn tokName c) ∧
      replaceJS tokName ("Ann".toList) (tokName ++ " and ".toList ++ tokName) =
        joinWith ("Ann".toList)
          (chunks tokName (tokName ++ " and ".toList ++ tokName)) ∧
      ((replaceJS tokName ("Ann".toList)
          (tokName ++ " and ".toList ++ tokName)).length : Int) =
        (((tokName ++ " and ".toList ++ tokName)).length : Int) +
          (countOccur tokName (tokName ++ " and ".toList ++ tokName) : Int) *
            ((("Ann".toList).length : Int) - (tokName.length : Int))) :=
  ⟨by decide, by decide,
    claim_c1 tokName ("Ann".toList) (tokName ++ " and ".toList ++ tokName)
      (by decide) (by decide)⟩

/-- C2 counterexample: the value `$&` is not inserted literally — the code
leaves `{name}` where literal insertion would produce `$&`. -/
theorem claim_c2_counterexample :
    (processDocumentText ⟨"$&".toList, [], []⟩ tokName).1 ≠
      replaceLiteral tokName ("$&".toList) tokName := by
  decide

/-- C2 (amended): for every replacement value containing no interpreted
dollar sequence (`$$`, `$&`, dollar-backquote, dollar-quote), the code's
replace call inserts the value as literal text, character for character:
it coincides with the spec's verbatim substitution `replaceLiteral`. -/
theorem claim_c2 (pat v T : List Char) (hp : pat ≠ [])
    (hv : dollarSpecialFree v = true) :
    replaceJS pat v T = replaceLiteral pat v T :=
  replaceJS_eq_replaceLiteral pat v T hp hv

/-- Witness for C2 at the `rollNo` token with a value containing `<`, `>`,
`&` (inserted verbatim, no XML escaping). -/
theorem claim_c2_witness :
    tokRollNo ≠ [] ∧ dollarSpecialFree ("<a&b>".toList) = true ∧
    replaceJS tokRollNo ("<a&b>".toList) ("no ".toList ++ tokRollNo) =
      replaceLiteral tokRollNo ("<a&b>".toList) ("no ".toList ++ tokRollNo) :=
  ⟨by decide, by decide,
    claim_c2 tokRollNo ("<a&b>".toList) ("no ".toList ++ tokRollNo)
      (by decide) (by decide)⟩

/-- C3: when no key token occurs in the text, the per-part transform is the
identity (every guard fails, the text is returned unchanged), for every
placeholder map. -/
theorem claim_c3 (d : FormData) (T : List Char)
    (h1 : ¬ OccursIn tokName T) (h2 : ¬ OccursIn tokRollNo T)
    (h3 : ¬ OccursIn tokSection T) :
    (processDocumentText d T).1 = T := by
  have g1 : includesTok tokName T = false := (includesTok_false_iff _ _).mpr h1
  have g2 : includesTok tokRollNo T = false := (includesTok_false_iff _ _).mpr h2
  have g3 : includesTok tokSection T = false := (includesTok_false_iff _ _).mpr h3
  simp [processDocumentText, g1, g2, g3]

/-- Witness for C3 on a token-free text. -/
theorem claim_c3_witness :
    ¬ OccursIn tokName ("Hello world".toList) ∧
    ¬ OccursIn tokRollNo ("Hello world".toList) ∧
    ¬ OccursIn tokSection ("Hello world".toList) ∧
    (processDocumentText ⟨"a".toList, "b".toList, "c".toList⟩
      ("Hello world".toList)).1 = "Hello world".toList := by
  have h1 : ¬ OccursIn tokName ("Hello world".toList) :=
    (includesTok_false_iff _ _).mp (by decide)
  have h2 : ¬ OccursIn tokRollNo ("Hello world".toList) :=
    (includesTok_false_iff _ _).mp (by decide)
  have h3 : ¬ OccursIn tokSection ("Hello world".toList) :=
    (includesTok_false_iff _ _).mp (by decide)
  exact ⟨h1, h2, h3,
    claim_c3 ⟨"a".toList, "b".toList, "c".toList⟩ ("Hello world".toList) h1 h2 h3⟩

/-- C5 counterexample: the code replaces single-brace tokens, so the
double-brace template `Hello {{name}}, roll {{rollNo}}, sec {{section}}.`
does NOT yield `Hello Ann, roll 7, sec B.`. -/
theorem claim_c5_counterexample :
    (processDocumentText ⟨"Ann".toList, "7".toList, "B".toList⟩
      ("Hello ".toList ++ [lbChar] ++ tokName ++ [rbChar] ++ ", roll ".toList ++
       [lbChar] ++ tokRollNo ++ [rbChar] ++ ", sec ".toList ++
       [lbChar] ++ tokSection ++ [rbChar] ++ ".".toList)).1 ≠
      "Hello Ann, roll 7, sec B.".toList := by
  decide

/-- C5 (amended): on the double-brace template the code yields
`Hello {Ann}, roll {7}, sec {B}.` (the outer braces survive); the expected
output `Hello Ann, roll 7, sec B.` is produced exactly for the single-brace
template `Hello {name}, roll {rollNo}, sec {section}.`. -/
theorem claim_c5 :
    (processDocumentText ⟨"Ann".toList, "7".toList, "B".toList⟩
      ("Hello ".toList ++ [lbChar] ++ tokName ++ [rbChar] ++ ", roll ".toList ++
       [lbChar] ++ tokRollNo ++ [rbChar] ++ ", sec ".toList ++
       [lbChar] ++ tokSection ++ [rbChar] ++ ".".toList)).1 =
      ("Hello ".toList ++ [lbChar] ++ "Ann".toList ++ [rbChar] ++
       ", roll ".toList ++ [lbChar] ++ "7".toList ++ [rbChar] ++
       ", sec ".toList ++ [lbChar] ++ "B".toList ++ [rbChar] ++ ".".toList) ∧
    (processDocumentText ⟨"Ann".toList, "7".toList, "B".toList⟩
      ("Hello ".toList ++ tokName ++ ", roll ".toList ++ tokRollNo ++
       ", sec ".toList ++ tokSection ++ ".".toList)).1 =
      "Hello Ann, roll 7, sec B.".toList := by
  constructor <;> decide

theorem zipGet_zipSet_same (zip : Package) (p c : List Char) :
    zipGet (zipSet zip p c) p = some c := by
  rw [zipSet]
  split
  · next hany =>
    rw [zipGet]
    induction zip with
    | nil => simp at hany
    | cons e zs ih =>
      by_cases he : (e.1 == p) = true
      · simp only [List.map_cons, if_pos he]
        rw [List.find?_cons_of_pos _ (by simp)]
        rfl
      · simp only [List.map_cons, if_neg he]
        rw [List.find?_cons_of_neg _ (by simp [he])]
        apply ih
        simp only [List.any_cons, Bool.or_eq_true] at hany
        rcases hany with h | h
        · exact absurd h he
        · exact h
  · next hany =>
    rw [zipGet]
    have hnone : List.find? (fun e => e.1 == p) zip = none := by
      rw [List.find?_eq_none]
      intro x hx
      intro hpx
      exact hany (List.any_eq_true.mpr ⟨x, hx, hpx⟩)
    rw [List.find?_append, hnone]
    simp

theorem zipGet_zipSet_ne (zip : Package) (p c q : List Char) (hne : p ≠ q) :
    zipGet (zipSet zip p c) q = zipGet zip q := by
  rw [zipSet]
  split
  · next hany =>
    clear hany
    rw [zipGet, zipGet]
    induction zip with
    | nil => simp
    | cons e zs ih =>
      by_cases he : (e.1 == p) = true
      · have he2 : ¬ ((e.1 == q) = true) := by
          have : e.1 = p := by simpa using he
          simp [this, hne]
        simp only [List.map_cons, if_pos he]
        rw [List.find?_cons_of_neg _ (by simp [hne]),
          List.find?_cons_of_neg _ (by simpa using he2)]
        exact ih
      · simp only [List.map_cons, if_neg he]
        by_cases hq : (e.1 == q) = true
        · rw [List.find?_cons_of_pos (List.map
              (fun e => if (e.1 == p) = true then (p, c) else e) zs) hq,
            List.find?_cons_of_pos zs hq]
        · rw [List.find?_cons_of_neg _ (by simpa using hq),
            List.find?_cons_of_neg _ (by simpa using hq)]
          exact ih
  · rw [zipGet, zipGet, List.find?_append]
    have h0 : List.find? (fun e => e.1 == q) [(p, c)] = none := by
      rw [List.find?_cons_of_neg [] (by simp [hne])]
      rfl
    rw [h0]
    simp

theorem foldl_zipSet_preserve (q : List Char)
    (g : List Char × List Char → List Char) :
    ∀ (files : Package) (zip : Package),
      (∀ f ∈ files, f.1 ≠ q) →
      zipGet (List.foldl (fun z e => zipSet z e.1 (g e)) zip files) q =
        zipGet zip q := by
  intro files
  induction files with
  | nil => intro zip _; rfl
  | cons f fs ih =>
    intro zip h
    rw [List.foldl_cons]
    rw [ih (zipSet zip f.1 (g f)) (fun x hx => h x (List.mem_cons_of_mem f hx))]
    exact zipGet_zipSet_ne zip f.1 (g f) q (h f (List.mem_cons_self f fs))

theorem processHeaderFooter_get_other (d : FormData) (zip : Package)
    (ty q : List Char) (hq : includesTok ("word/".toList ++ ty) q = false) :
    zipGet (processHeaderFooter d zip ty) q = zipGet zip q := by
  rw [processHeaderFooter]
  apply foldl_zipSet_preserve
  intro f hf
  have hmem := List.of_mem_filter hf
  simp only [Bool.and_eq_true] at hmem
  intro hEq
  rw [hEq] at hmem
  rw [hmem.1] at hq
  exact absurd hq (by simp)

theorem processDocumentXML_get (d : FormData) (zip : Package)
    (xml : List Char) (h : zipGet zip docPath = some xml) :
    ∃ z, processDocumentXML d zip = Except.ok z ∧
      zipGet z docPath = some (processDocumentText d xml).1 := by
  rw [processDocumentXML, h]
  refine ⟨_, rfl, ?_⟩
  rw [processHeaderFooter_get_other d _ "footer".toList docPath (by decide)]
  rw [processHeaderFooter_get_other d _ "header".toList docPath (by decide)]
  exact zipGet_zipSet_same zip docPath (processDocumentText d xml).1

/-- C6: when `word/document.xml` is absent from the package,
`processDocumentXML` raises the error (modelled as `Except.error`) and the
whole generation attempt aborts with that error, producing no document. -/
theorem claim_c6 (d : FormData) (zip : Package)
    (h : zipGet zip docPath = none) :
    processDocumentXML d zip =
      Except.error "Could not find document.xml in the .docx file" ∧
    generateDocument d zip =
      Except.error "Could not find document.xml in the .docx file" := by
  have hp : processDocumentXML d zip =
      Except.error "Could not find document.xml in the .docx file" := by
    rw [processDocumentXML, h]
  exact ⟨hp, hp⟩

/-- Witness for C6 on the empty package. -/
theorem claim_c6_witness :
    zipGet ([] : Package) docPath = none ∧
    (processDocumentXML ⟨"a".toList, "b".toList, "c".toList⟩ ([] : Package) =
        Except.error "Could not find document.xml in the .docx file" ∧
      generateDocument ⟨"a".toList, "b".toList, "c".toList⟩ ([] : Package) =
        Except.error "Could not find document.xml in the .docx file") :=
  ⟨rfl, claim_c6 ⟨"a".toList, "b".toList, "c".toList⟩ [] rfl⟩

/-- C7: whenever the primary body part is present, `processDocumentXML`
returns normally (for every package, in particular packages with no header
or footer parts at all) and the primary-body substitution result is
produced at `word/document.xml`; the header/footer pass is total and never
aborts the operation. -/
theorem claim_c7 (d : FormData) (zip : Package) (xml : List Char)
    (h : zipGet zip docPath = some xml) :
    ∃ z, processDocumentXML d zip = Except.ok z ∧
      zipGet z docPath = some (processDocumentText d xml).1 :=
  processDocumentXML_get d zip xml h

/-- Witness for C7 on a package containing only the body part (every header
part absent). -/
theorem claim_c7_witness :
    zipGet [(docPath, "Hi ".toList ++ tokName)] docPath =
      some ("Hi ".toList ++ tokName) ∧
    ∃ z, processDocumentXML ⟨"Ann".toList, "7".toList, "B".toList⟩
        [(docPath, "Hi ".toList ++ tokName)] = Except.ok z ∧
      zipGet z docPath = some (processDocumentText
        ⟨"Ann".toList, "7".toList, "B".toList⟩ ("Hi ".toList ++ tokName)).1 :=
  ⟨by decide, claim_c7 ⟨"Ann".toList, "7".toList, "B".toList⟩
    [(docPath, "Hi ".toList ++ tokName)] ("Hi ".toList ++ tokName) (by decide)⟩

/-- C8: when the section token has no occurrence in the body text but the
name and rollNo tokens occur, generation still succeeds: the name and
rollNo tokens are replaced, the section text is left unchanged (the
section replace step is skipped), the report records the per-key "not
found" warning for section (and success for the others), and the output
document is produced. -/
theorem claim_c8 (d : FormData) (zip : Package) (xml : List Char)
    (hdoc : zipGet zip docPath = some xml)
    (hname : OccursIn tokName xml) (hroll : OccursIn tokRollNo xml)
    (hsec : ¬ OccursIn tokSection xml) :
    (processDocumentText d xml).1 =
      replaceJS tokRollNo d.rollNo (replaceJS tokName d.name xml) ∧
    (processDocumentText d xml).2 = ⟨true, true, false⟩ ∧
    ∃ z, processDocumentXML d zip = Except.ok z ∧
      zipGet z docPath =
        some (replaceJS tokRollNo d.rollNo (replaceJS tokName d.name xml)) := by
  have g1 : includesTok tokName xml = true := (includesTok_iff _ _).mpr hname
  have g2 : includesTok tokRollNo xml = true := (includesTok_iff _ _).mpr hroll
  have g3 : includesTok tokSection xml = false :=
    (includesTok_false_iff _ _).mpr hsec
  have htext : (processDocumentText d xml).1 =
      replaceJS tokRollNo d.rollNo (replaceJS tokName d.name xml) := by
    simp [processDocumentText, g1, g2, g3]
  refine ⟨htext, ?_, ?_⟩
  · simp [processDocumentText, g1, g2, g3]
  · obtain ⟨z, hz1, hz2⟩ := processDocumentXML_get d zip xml hdoc
    exact ⟨z, hz1, by rw [hz2, htext]⟩

/-- Witness for C8 on a body containing the name and rollNo tokens but no
section token. -/
theorem claim_c8_witness :
    zipGet [(docPath, tokName ++ " ".toList ++ tokRollNo)] docPath =
      some (tokName ++ " ".toList ++ tokRollNo) ∧
    OccursIn tokName (tokName ++ " ".toList ++ tokRollNo) ∧
    OccursIn tokRollNo (tokName ++ " ".toList ++ tokRollNo) ∧
    ¬ OccursIn tokSection (tokName ++ " ".toList ++ tokRollNo) ∧
    ((processDocumentText ⟨"Ann".toList, "7".toList, "B".toList⟩
        (tokName ++ " ".toList ++ tokRollNo)).2 = ⟨true, true, false⟩) := by
  have h1 : OccursIn tokName (tokName ++ " ".toList ++ tokRollNo) :=
    (includesTok_iff _ _).mp (by decide)
  have h2 : OccursIn tokRollNo (tokName ++ " ".toList ++ tokRollNo) :=
    (includesTok_iff _ _).mp (by decide)
  have h3 : ¬ OccursIn tokSection (tokName ++ " ".toList ++ tokRollNo) :=
    (includesTok_false_iff _ _).mp (by decide)
  refine ⟨by decide, h1, h2, h3, ?_⟩
  exact (claim_c8 ⟨"Ann".toList, "7".toList, "B".toList⟩
    [(docPath, tokName ++ " ".toList ++ tokRollNo)]
    (tokName ++ " ".toList ++ tokRollNo) (by decide) h1 h2 h3).2.1

/-- C9: the generated filename is
`sanitize(name) ++ "_" ++ sanitize(rollNo) ++ ".docx"`, where sanitisation
maps each character outside word-characters, whitespace, `.` and `-` to
`_` and keeps the rest (so it preserves length); in particular
`Jo@hn!` and `12/3` yield `Jo_hn__12_3.docx`. -/
theorem claim_c9 :
    makeFilename ("Jo@hn!".toList) ("12/3".toList) =
      "Jo_hn__12_3.docx".toList ∧
    (∀ nm rn : List Char, makeFilename nm rn =
      List.map sanitizeChar nm ++ ('_' :: List.map sanitizeChar rn) ++
        ".docx".toList) ∧
    (∀ c : Char, sanitizeChar c = if allowedFilenameChar c then c else '_') ∧
    (∀ s : List Char, (sanitizeField s).length = s.length) := by
  refine ⟨by decide, fun nm rn => rfl, fun c => rfl, fun s => by
    simp [sanitizeField]⟩

/-- C10 counterexample: with the body `{name}` and name value `{rollNo}`,
the introduced rollNo token is NOT replaced in the output (the rollNo
guard tested the original text, where the token was absent): the output is
exactly `{rollNo}` and the report records rollNo as not found. -/
theorem claim_c10_counterexample :
    (processDocumentText ⟨tokRollNo, "x".toList, "y".toList⟩ tokName).1 =
      tokRollNo ∧
    (processDocumentText
      ⟨tokRollNo, "x".toList, "y".toList⟩ tokName).2.rollNoReplaced = false ∧
    OccursIn tokRollNo
      (processDocumentText ⟨tokRollNo, "x".toList, "y".toList⟩ tokName).1 :=
  ⟨by decide, by decide, ⟨[], [], by decide⟩⟩

/-- C10 (amended): the per-key replaced/not-found report of
`processDocumentXML` is computed from the original text `T` only: key `k`
is reported as replaced if and only if `k`'s token occurs in `T`, and the
report is unaffected by token occurrences introduced into the intermediate
text by earlier keys' replacement values. -/
theorem claim_c10 (d : FormData) (T : List Char) :
    ((processDocumentText d T).2.nameReplaced = true ↔ OccursIn tokName T) ∧
    ((processDocumentText d T).2.rollNoReplaced = true ↔
      OccursIn tokRollNo T) ∧
    ((processDocumentText d T).2.sectionReplaced = true ↔
      OccursIn tokSection T) := by
  refine ⟨?_, ?_, ?_⟩ <;> exact includesTok_iff _ T

theorem keyTok_ne_nil (k : Key) : keyTok k ≠ [] := by
  cases k <;> simp [keyTok, tokName, tokRollNo, tokSection]

theorem keyTok_eq_cons (k : Key) : ∃ t, keyTok k = lbChar :: t := by
  cases k
  · exact ⟨_, rfl⟩
  · exact ⟨_, rfl⟩
  · exact ⟨_, rfl⟩

theorem keyTok_len_pos (k : Key) : 0 < (keyTok k).length := by
  cases k <;> decide

theorem keyTok_tail_no_lb (k : Key) :
    ∀ c ∈ (keyTok k).tail, ¬ (c = lbChar) := by
  cases k <;> decide

theorem tok_take2_ne (j k : Key) :
    j ≠ k → (keyTok j).take 2 ≠ (keyTok k).take 2 := by
  cases j <;> cases k <;> decide

theorem tok_no_cross (j k : Key) (hjk : j ≠ k) (t : List Char) :
    startsWithTok (keyTok k) (keyTok j ++ t) = false := by
  cases hsw : startsWithTok (keyTok k) (keyTok j ++ t) with
  | false => rfl
  | true =>
    exfalso
    obtain ⟨u, hu⟩ := (startsWithTok_iff _ _).mp hsw
    have h2 : (keyTok j ++ t).take 2 = (keyTok k ++ u).take 2 := by rw [hu]
    have hj2 : 2 ≤ (keyTok j).length := by cases j <;> decide
    have hk2 : 2 ≤ (keyTok k).length := by cases k <;> decide
    rw [List.take_append_of_le_length hj2,
      List.take_append_of_le_length hk2] at h2
    exact tok_take2_ne j k hjk h2

theorem startsWithTok_false_of_head_ne (pat : List Char) (p0 : Char)
    (hpat : pat.head? = some p0) (c : Char) (cs : List Char) (hc : ¬ c = p0) :
    startsWithTok pat (c :: cs) = false := by
  cases pat with
  | nil => simp at hpat
  | cons a as =>
    simp only [List.head?_cons, Option.some.injEq] at hpat
    subst hpat
    cases hbe : (a == c) with
    | false =>
      show (a == c && startsWithTok as cs) = false
      rw [hbe]
      rfl
    | true =>
      have hac : a = c := by simpa using hbe
      exact absurd hac.symm hc

theorem no_start_in_seg (pat : List Char) (hpat : pat.head? = some lbChar)
    (s t : List Char) (hs : braceFree s = true) :
    ∀ b, b ≠ [] → List.IsSuffix b s → startsWithTok pat (b ++ t) = false := by
  intro b hb hsuf
  cases b with
  | nil => exact absurd rfl hb
  | cons b0 brest =>
    have hmem : b0 ∈ s := hsuf.subset (List.mem_cons_self b0 brest)
    have hb0 : ¬ (b0 = lbChar) := by
      rw [braceFree, List.all_eq_true] at hs
      have h0 := hs b0 hmem
      simp only [Bool.and_eq_true, Bool.not_eq_true', beq_eq_false_iff_ne,
        ne_eq] at h0
      exact h0.1
    rw [List.cons_append]
    exact startsWithTok_false_of_head_ne pat lbChar hpat b0 _ hb0

theorem no_start_in_tok (j k : Key) (hjk : j ≠ k) (t : List Char) :
    ∀ b, b ≠ [] → List.IsSuffix b (keyTok j) →
      startsWithTok (keyTok k) (b ++ t) = false := by
  intro b hb hsuf
  obtain ⟨a, ha⟩ := hsuf
  cases a with
  | nil =>
    simp only [List.nil_append] at ha
    subst ha
    exact tok_no_cross j k hjk t
  | cons a0 arest =>
    cases b with
    | nil => exact absurd rfl hb
    | cons b0 brest =>
      have htail : (keyTok j).tail = arest ++ b0 :: brest := by
        rw [← ha]
        rfl
      have hmem : b0 ∈ (keyTok j).tail := by
        rw [htail]
        simp
      have hb0 : ¬ (b0 = lbChar) := keyTok_tail_no_lb j b0 hmem
      obtain ⟨kt, hkt⟩ := keyTok_eq_cons k
      rw [List.cons_append]
      exact startsWithTok_false_of_head_ne (keyTok k) lbChar
        (by rw [hkt]; rfl) b0 _ hb0

theorem firstMatch_append (pat : List Char) :
    ∀ s t : List Char,
      (∀ b, b ≠ [] → List.IsSuffix b s → startsWithTok pat (b ++ t) = false) →
      firstMatch pat (s ++ t) =
        Option.map (fun pr => (s ++ pr.1, pr.2)) (firstMatch pat t) := by
  intro s
  induction s with
  | nil =>
    intro t _
    simp only [List.nil_append]
    cases hfm : firstMatch pat t with
    | none => rfl
    | some pr =>
      obtain ⟨x, y⟩ := pr
      rfl
  | cons c s2 ih =>
    intro t h
    rw [List.cons_append, firstMatch]
    have hsw : startsWithTok pat (c :: (s2 ++ t)) = false := by
      have h0 := h (c :: s2) (by simp) (List.suffix_refl _)
      simpa using h0
    rw [if_neg (by simp [hsw])]
    rw [ih t (fun b hb hbs => h b hb (hbs.trans (List.suffix_cons c s2)))]
    cases firstMatch pat t with
    | none => rfl
    | some pr =>
      obtain ⟨x, y⟩ := pr
      rfl

theorem replaceJSFuel_append (pat v : List Char) (s t : List Char)
    (h : ∀ b, b ≠ [] → List.IsSuffix b s →
      startsWithTok pat (b ++ t) = false) :
    ∀ fuel done, replaceJSFuel pat v fuel done (s ++ t) =
      s ++ replaceJSFuel pat v fuel (done ++ s) t := by
  intro fuel done
  cases fuel with
  | zero => rfl
  | succ n =>
    rw [replaceJSFuel, replaceJSFuel]
    rw [firstMatch_append pat s t h]
    cases hfm : firstMatch pat t with
    | none => simp [hfm]
    | some pr =>
      obtain ⟨pre, post⟩ := pr
      simp only [hfm, Option.map_some']
      simp [List.append_assoc]

theorem firstMatch_self_append (pat : List Char) (hp : pat ≠ [])
    (t : List Char) : firstMatch pat (pat ++ t) = some ([], t) := by
  cases pat with
  | nil => exact absurd rfl hp
  | cons p ps =>
    rw [List.cons_append, firstMatch]
    have hsw : startsWithTok (p :: ps) (p :: (ps ++ t)) = true :=
      (startsWithTok_iff _ _).mpr ⟨t, by simp⟩
    rw [if_pos hsw]
    simp [List.drop_left]

theorem itemsOk_cons (it : Item) (rest : List Item)
    (h : itemsOk (it :: rest) = true) : itemsOk rest = true := by
  rw [itemsOk] at h ⊢
  rw [List.all_cons, Bool.and_eq_true] at h
  exact h.2

theorem itemsOk_seg (s : List Char) (rest : List Item)
    (h : itemsOk (Item.seg s :: rest) = true) : braceFree s = true := by
  rw [itemsOk, List.all_cons, Bool.and_eq_true] at h
  exact h.1

theorem replaceJSFuel_render (k : Key) (v : List Char)
    (hv : dollarSpecialFree v = true) :
    ∀ items : List Item, itemsOk items = true →
      ∀ fuel done, (render items).length ≤ fuel →
        replaceJSFuel (keyTok k) v fuel done (render items) =
          render (items.map (substOne k v)) := by
  intro items
  induction items with
  | nil =>
    intro _ fuel done _
    have hfm : firstMatch (keyTok k) [] = none := by cases k <;> rfl
    exact replaceJSFuel_no_match (keyTok k) v fuel done [] hfm
  | cons it rest ih =>
    intro hok fuel done hfuel
    have hokr := itemsOk_cons it rest hok
    cases it with
    | seg s =>
      have hbf := itemsOk_seg s rest hok
      obtain ⟨kt, hkt⟩ := keyTok_eq_cons k
      have hns := no_start_in_seg (keyTok k) (by rw [hkt]; rfl) s
        (render rest) hbf
      have hr : render (Item.seg s :: rest) = s ++ render rest := rfl
      rw [hr] at hfuel ⊢
      rw [replaceJSFuel_append (keyTok k) v s (render rest) hns fuel done]
      have hlen : (render rest).length ≤ fuel := by
        rw [List.length_append] at hfuel
        omega
      rw [ih hokr fuel (done ++ s) hlen]
      rfl
    | ph k2 =>
      have hr : render (Item.ph k2 :: rest) = keyTok k2 ++ render rest := rfl
      rw [hr] at hfuel ⊢
      by_cases hk : k2 = k
      · subst hk
        cases fuel with
        | zero =>
          exfalso
          have h0 := keyTok_len_pos k2
          rw [List.length_append] at hfuel
          omega
        | succ n =>
          rw [replaceJSFuel]
          simp only [firstMatch_self_append (keyTok k2) (keyTok_ne_nil k2)
            (render rest)]
          rw [getSubstitution_id (keyTok k2) (done ++ []) (render rest) v hv]
          have hlen : (render rest).length ≤ n := by
            rw [List.length_append] at hfuel
            have h0 := keyTok_len_pos k2
            omega
          rw [ih hokr n (done ++ [] ++ keyTok k2) hlen]
          simp [substOne, render]
      · have hns := no_start_in_tok k2 k hk (render rest)
        rw [replaceJSFuel_append (keyTok k) v (keyTok k2) (render rest)
          hns fuel done]
        have hlen : (render rest).length ≤ fuel := by
          rw [List.length_append] at hfuel
          omega
        rw [ih hokr fuel (done ++ keyTok k2) hlen]
        simp [substOne, hk, render]

theorem replaceJS_render (k : Key) (v : List Char)
    (hv : dollarSpecialFree v = true) (items : List Item)
    (hok : itemsOk items = true) :
    replaceJS (keyTok k) v (render items) =
      render (items.map (substOne k v)) := by
  rw [replaceJS]
  exact replaceJSFuel_render k v hv items hok _ [] (by omega)

theorem itemsOk_map_substOne (k : Key) (v : List Char)
    (hbv : braceFree v = true) :
    ∀ items, itemsOk items = true →
      itemsOk (items.map (substOne k v)) = true := by
  intro items
  induction items with
  | nil => intro h; exact h
  | cons it rest ih =>
    intro h
    have h2 := itemsOk_cons it rest h
    rw [itemsOk, List.map_cons, List.all_cons, Bool.and_eq_true]
    refine ⟨?_, ih h2⟩
    cases it with
    | seg s => exact itemsOk_seg s rest h
    | ph k2 =>
      by_cases hk : k2 = k
      · simp [substOne, hk, hbv]
      · simp [substOne, hk]

theorem itemsOk_foldl (d : FormData)
    (hb : ∀ k : Key, braceFree (keyVal d k) = true) :
    ∀ (ks : List Key) (items : List Item), itemsOk items = true →
      itemsOk (List.foldl
        (fun its k2 => its.map (substOne k2 (keyVal d k2))) items ks) = true := by
  intro ks
  induction ks with
  | nil => intro items h; exact h
  | cons k2 ks2 ih =>
    intro items h
    rw [List.foldl_cons]
    exact ih _ (itemsOk_map_substOne k2 _ (hb k2) items h)

theorem applyKeys_render (d : FormData)
    (hb : ∀ k2 : Key, braceFree (keyVal d k2) = true)
    (hv : ∀ k2 : Key, dollarSpecialFree (keyVal d k2) = true) :
    ∀ (ks : List Key) (items : List Item), itemsOk items = true →
      applyKeys d ks (render items) =
        render (List.foldl
          (fun its k2 => its.map (substOne k2 (keyVal d k2))) items ks) := by
  intro ks
  induction ks with
  | nil => intro items _; rfl
  | cons k2 ks2 ih =>
    intro items hok
    simp only [applyKeys, List.foldl_cons]
    rw [replaceJS_render k2 (keyVal d k2) (hv k2) items hok]
    have h0 := ih (items.map (substOne k2 (keyVal d k2)))
      (itemsOk_map_substOne k2 (keyVal d k2) (hb k2) items hok)
    rw [applyKeys] at h0
    exact h0

theorem substFold_seg (d : FormData) (s : List Char) :
    ∀ ks : List Key,
      List.foldl (fun x k2 => substOne k2 (keyVal d k2) x) (Item.seg s) ks =
        Item.seg s := by
  intro ks
  induction ks with
  | nil => rfl
  | cons k2 ks2 ih =>
    rw [List.foldl_cons]
    exact ih

theorem substFold_ph (d : FormData) (k0 : Key) :
    ∀ ks : List Key,
      List.foldl (fun x k2 => substOne k2 (keyVal d k2) x) (Item.ph k0) ks =
        (if k0 ∈ ks then Item.seg (keyVal d k0) else Item.ph k0) := by
  intro ks
  induction ks with
  | nil => rfl
  | cons k2 ks2 ih =>
    rw [List.foldl_cons]
    by_cases hk : k0 = k2
    · subst hk
      have h1 : substOne k0 (keyVal d k0) (Item.ph k0) =
          Item.seg (keyVal d k0) := by simp [substOne]
      rw [h1, substFold_seg d (keyVal d k0) ks2]
      simp
    · have h1 : substOne k2 (keyVal d k2) (Item.ph k0) = Item.ph k0 := by
        simp [substOne, hk]
      rw [h1, ih]
      simp [List.mem_cons, hk]

theorem foldl_map_substOne (d : FormData) :
    ∀ (ks : List Key) (items : List Item),
      List.foldl (fun its k2 => its.map (substOne k2 (keyVal d k2))) items ks =
        items.map (fun it =>
          List.foldl (fun x k2 => substOne k2 (keyVal d k2) x) it ks) := by
  intro ks
  induction ks with
  | nil =>
    intro items
    simp
  | cons k2 ks2 ih =>
    intro items
    rw [List.foldl_cons, ih, List.map_map]
    rfl

/-- C4 counterexample: with name value `{rollNo}` and body `{name}`,
substituting for {name} then {rollNo} yields `x`, while the other order
yields `{rollNo}` — order matters when a value introduces the other set's
token. -/
theorem claim_c4_counterexample :
    applyKeys ⟨tokRollNo, "x".toList, "y".toList⟩ [Key.rollNo]
      (applyKeys ⟨tokRollNo, "x".toList, "y".toList⟩ [Key.name] tokName) ≠
    applyKeys ⟨tokRollNo, "x".toList, "y".toList⟩ [Key.name]
      (applyKeys ⟨tokRollNo, "x".toList, "y".toList⟩ [Key.rollNo] tokName) := by
  decide

/-- C4 (amended): for texts that are an interleaving of brace-free literal
segments and key tokens, and values that are brace-free and contain no
interpreted dollar sequence, applying substitution for key set `A` and
then for key set `B` (disjoint from `A`) yields the same output as the
other order. -/
theorem claim_c4 (d : FormData) (A B : List Key) (items : List Item)
    (hok : itemsOk items = true)
    (hb : ∀ k : Key, braceFree (keyVal d k) = true)
    (hv : ∀ k : Key, dollarSpecialFree (keyVal d k) = true)
    (hdisj : ∀ k : Key, k ∈ A → k ∉ B) :
    applyKeys d B (applyKeys d A (render items)) =
      applyKeys d A (applyKeys d B (render items)) := by
  rw [applyKeys_render d hb hv A items hok]
  rw [applyKeys_render d hb hv B items hok]
  rw [applyKeys_render d hb hv B _ (itemsOk_foldl d hb A items hok)]
  rw [applyKeys_render d hb hv A _ (itemsOk_foldl d hb B items hok)]
  congr 1
  rw [foldl_map_substOne, foldl_map_substOne, foldl_map_substOne,
    foldl_map_substOne]
  rw [List.map_map, List.map_map]
  apply List.map_congr_left
  intro it _
  simp only [Function.comp_apply]
  cases it with
  | seg s => simp [substFold_seg]
  | ph k0 =>
    by_cases hA : k0 ∈ A <;> by_cases hB : k0 ∈ B
    · exact absurd hB (hdisj k0 hA)
    · simp [substFold_ph, substFold_seg, hA, hB]
    · simp [substFold_ph, substFold_seg, hA, hB]
    · simp [substFold_ph, substFold_seg, hA, hB]

/-- Witness for C4: disjoint singleton key sets on an interleaved text. -/
theorem claim_c4_witness :
    itemsOk [Item.seg ("Hello ".toList), Item.ph Key.name,
      Item.seg (", ".toList), Item.ph Key.rollNo] = true ∧
    (∀ k : Key, braceFree
      (keyVal ⟨"Ann".toList, "7".toList, "B".toList⟩ k) = true) ∧
    (∀ k : Key, dollarSpecialFree
      (keyVal ⟨"Ann".toList, "7".toList, "B".toList⟩ k) = true) ∧
    (∀ k : Key, k ∈ [Key.name] → k ∉ [Key.rollNo]) ∧
    applyKeys ⟨"Ann".toList, "7".toList, "B".toList⟩ [Key.rollNo]
      (applyKeys ⟨"Ann".toList, "7".toList, "B".toList⟩ [Key.name]
        (render [Item.seg ("Hello ".toList), Item.ph Key.name,
          Item.seg (", ".toList), Item.ph Key.rollNo])) =
    applyKeys ⟨"Ann".toList, "7".toList, "B".toList⟩ [Key.name]
      (applyKeys ⟨"Ann".toList, "7".toList, "B".toList⟩ [Key.rollNo]
        (render [Item.seg ("Hello ".toList), Item.ph Key.name,
          Item.seg (", ".toList), Item.ph Key.rollNo])) := by
  have hb : ∀ k : Key, braceFree
      (keyVal ⟨"Ann".toList, "7".toList, "B".toList⟩ k) = true := by
    intro k
    cases k <;> decide
  have hv : ∀ k : Key, dollarSpecialFree
      (keyVal ⟨"Ann".toList, "7".toList, "B".toList⟩ k) = true := by
    intro k
    cases k <;> decide
  have hdisj : ∀ k : Key, k ∈ [Key.name] → k ∉ [Key.rollNo] := by
    intro k
    cases k <;> decide
  exact ⟨by decide, hb, hv, hdisj,
    claim_c4 ⟨"Ann".toList, "7".toList, "B".toList⟩ [Key.name] [Key.rollNo]
      [Item.seg ("Hello ".toList), Item.ph Key.name,
        Item.seg (", ".toList), Item.ph Key.rollNo]
      (by decide) hb hv hdisj⟩
